import Mathlib

/-!
Verification of the STMLearn active-automata-learning core.

This file gives a shallow embedding of the two learners of the repository:

* `LStarMealyLearner` (src/stmlearn/learners/_lstar_mealy_learner.py), the
  observation-table learner, embedded in namespace `LStar`;
* `TTTMealyLearner` (src/stmlearn/learners/_ttt_mealy_learner.py), the
  discrimination-tree learner, embedded in namespace `TTT`.

Words over the input alphabet are `List I`, outputs are `List O`.  The teacher
is not part of the source tree; following the spec (section 4.1) a membership
query is an arbitrary deterministic total function `mq : List I → List O`
(the spec additionally promises that the answer has the length of the query;
theorems that need this take it as a hypothesis).  Python sets with a
deterministic iteration order are embedded as duplicate-free lists in
insertion order, and Python dicts as association lists in insertion order.
-/

namespace STMLearn

variable {I O : Type} [DecidableEq I] [DecidableEq O]

/-- Insertion into a Python-set modelled as an ordered duplicate-free list
(`NotifierSet.add` / `set.add`): a no-op when the element is present,
otherwise an append. -/
def addIfAbsent (xs : List α) (x : α) [DecidableEq α] : List α :=
  if x ∈ xs then xs else xs ++ [x]

/-- The itertools `combinations(l, 2)`: all ordered pairs of distinct
positions, the first component occurring before the second. -/
def combinations2 : List α → List (α × α)
  | [] => []
  | x :: xs => xs.map (fun y => (x, y)) ++ combinations2 xs

namespace LStar

/-- The observation-table state of `LStarMealyLearner`: access sequences `S`,
distinguishing suffixes `E`, the alphabet `A` (the source stores one-symbol
tuples; we store the symbols and append with `s ++ [a]`), and the table `T`
(an association list, saved by checkpoints). -/
structure LState (I O : Type) where
  S : List (List I)
  E : List (List I)
  A : List I
  T : List (List I × List O)
  deriving DecidableEq

/-- Initialization, `LStarMealyLearner.__init__`: `S = {ε}`, `E = A` as singletons, `T = {}`. -/
def init (A : List I) : LState I O :=
  { S := [[]], E := A.map (fun a => [a]), A := A, T := [] }

/-- Membership lookup, `LStarMealyLearner.query` (lines 157-164 of the source).  The function
body is `return self.teacher.member_query(query)` followed by a caching
block that stores the answer in `self.T`; the `return` on the first line
makes that block unreachable, so the state (in particular `T`) is returned
unchanged. -/
def query (mq : List I → List O) (st : LState I O) (w : List I) :
    List O × LState I O :=
  (mq w, st)

/-- Source `LStarMealyLearner._SA`: the set `S·A ∪ A` (the source unions the
products with the alphabet singletons). -/
def SA (st : LState I O) : List (List I) :=
  ((st.S.flatMap (fun s => st.A.map (fun a => s ++ [a]))) ++
    st.A.map (fun a => [a])).dedup

/-- Source `LStarMealyLearner._SUSA`: the set `S ∪ S·A`. -/
def SUSA (st : LState I O) : List (List I) :=
  (st.S ++ SA st).dedup

/-- Source `LStarMealyLearner._get_row`: the row of `s` is the vector, over
`e ∈ E` in order, of the raw membership answer on `s ++ e` (the source
raises when `s ∉ S ∪ S·A`; the row value itself only reads `E`). -/
def get_row (mq : List I → List O) (st : LState I O) (s : List I) :
    List (List O) :=
  st.E.map (fun e => (query mq st (s ++ e)).1)

/-- Formalization of the claim's words (spec section 3) for comparison with
`get_row`: the table entry for `s·e` is the output on `s ++ e` projected to
the suffix of length `|e|`, the tail output corresponding to reading `e`
after `s`. -/
def spec_row (mq : List I → List O) (E : List (List I)) (s : List I) :
    List (List O) :=
  E.map (fun e => (mq (s ++ e)).drop s.length)

/-- Row lookup `_get_row` with the state of `query` threaded through, exposing the
effect (or absence of effect) of row lookups on the table `T`. -/
def get_row_st (mq : List I → List O) (st : LState I O) (s : List I) :
    List (List O) × LState I O :=
  st.E.foldl
    (fun acc e =>
      let q := query mq acc.2 (s ++ e)
      (acc.1 ++ [q.1], q.2))
    ([], st)

/-- Source `LStarMealyLearner._is_closed`: every row of `S·A` occurs among the rows
of `S`. -/
def is_closed (mq : List I → List O) (st : LState I O) : Bool :=
  (SA st).all (fun t => decide (get_row mq st t ∈ st.S.map (get_row mq st)))

/-- The pairs `(s₁, s₂)` from `combinations(S, 2)` with equal rows. -/
def eqrows (mq : List I → List O) (st : LState I O) :
    List (List I × List I) :=
  (combinations2 st.S).filter
    (fun p => decide (get_row mq st p.1 = get_row mq st p.2))

/-- Source `LStarMealyLearner._is_consistent`: equal rows in `S` stay equal after
appending any alphabet symbol. -/
def is_consistent (mq : List I → List O) (st : LState I O) : Bool :=
  (eqrows mq st).all (fun p =>
    st.A.all (fun a =>
      decide (get_row mq st (p.1 ++ [a]) = get_row mq st (p.2 ++ [a]))))

/-- The inconsistency branch of `LStarMealyLearner.step`: the first pair of
equal rows and `(a, e) ∈ A × E` with `T(s₁·a·e) ≠ T(s₂·a·e)` (the source
breaks out of both loops) contributes `a·e` as a new member of `E`. -/
def consistency_fix (mq : List I → List O) (st : LState I O) : LState I O :=
  let AE := st.A.flatMap (fun a => st.E.map (fun e => (a, e)))
  let cand := (eqrows mq st).flatMap (fun p => AE.map (fun ae => (p, ae)))
  match cand.find? (fun x =>
      decide ¬(mq (x.1.1 ++ [x.2.1] ++ x.2.2) = mq (x.1.2 ++ [x.2.1] ++ x.2.2))) with
  | some x => { st with E := addIfAbsent st.E ([x.2.1] ++ x.2.2) }
  | none => st

/-- The not-closed branch of `LStarMealyLearner.step`: the rows of `S` are
computed once, then every `t = s·a` from `product(S, A)` (a snapshot) whose
row is not among them is added to `S` — the `break` in the source is
commented out, so the loop does not stop after the first addition. -/
def closed_fix (mq : List I → List O) (st : LState I O) : LState I O :=
  let S_rows := st.S.map (get_row mq st)
  let ts := st.S.flatMap (fun s => st.A.map (fun a => s ++ [a]))
  { st with
    S := ts.foldl
      (fun S t => if get_row mq st t ∈ S_rows then S else addIfAbsent S t)
      st.S }

/-- Source `LStarMealyLearner.step`: both verdicts are computed at entry; the
inconsistency fix (which may extend `E`) runs first, the closedness fix
second. -/
def step (mq : List I → List O) (st : LState I O) : LState I O :=
  let closed := is_closed mq st
  let consistent := is_consistent mq st
  let st1 := if consistent then st else consistency_fix mq st
  if closed then st1 else closed_fix mq st1

/-- A transition of the hypothesis machine.  `MealyState` objects of the
source are keyed by their row, so a state is a row. -/
structure Edge (I O : Type) where
  src : List (List O)
  inp : I
  out : List O
  tgt : List (List O)
  deriving DecidableEq

/-- Modelled from the spec: `MealyState.add_edge` (spec section 4.2) lives in
`stmlearn.suls`, which is absent from src.  Without `override`, re-adding
the identical edge is a no-op and an edge with the same source and input but
a different output or target is a programming error (an exception). -/
def add_edge (es : List (Edge I O)) (src : List (List O)) (a : I)
    (out : List O) (tgt : List (List O)) : Except Unit (List (Edge I O)) :=
  match es.find? (fun e => decide (e.src = src) && decide (e.inp = a)) with
  | some e => if e.out = out ∧ e.tgt = tgt then .ok es else .error ()
  | none => .ok (es ++ [⟨src, a, out, tgt⟩])

/-- The hypothesis Mealy machine built by `build_dfa`, with states named by
their rows. -/
structure MealyHyp (I O : Type) where
  initial : List (List O)
  states : List (List (List O))
  edges : List (Edge I O)
  deriving DecidableEq

/-- The distinct rows of `S`, as gathered by `build_dfa` into its state
dictionary. -/
def dfa_states (mq : List I → List O) (st : LState I O) :
    List (List (List O)) :=
  (st.S.map (get_row mq st)).dedup

/-- One edge-insertion attempt of the `build_dfa` loop body, without the
exception handler: when the row of `s·a` names a state, `add_edge` is
attempted with the raw membership answer on `s·a` as output; otherwise
nothing happens. -/
def dfa_edge_step (mq : List I → List O) (st : LState I O)
    (es : List (Edge I O)) (s : List I) (a : I) :
    Except Unit (List (Edge I O)) :=
  let sa_row := get_row mq st (s ++ [a])
  if sa_row ∈ dfa_states mq st then
    add_edge es (get_row mq st s) a ((query mq st (s ++ [a])).1) sa_row
  else pure es

/-- The edge loop of `build_dfa`: for every `s ∈ S` (the `visited_rows`
bookkeeping of the source never fires, so every member is processed) and
every `a ∈ A`, attempt the insertion; the `try/except: pass` of the source
swallows every `add_edge` failure, keeping the previous edges. -/
def dfa_edges (mq : List I → List O) (st : LState I O) : List (Edge I O) :=
  st.S.foldl
    (fun es s =>
      st.A.foldl
        (fun es a =>
          match dfa_edge_step mq st es s a with
          | .ok es2 => es2
          | .error _ => es)
        es)
    []

/-- The edge loop of `build_dfa` with the `try/except: pass` removed: the
first `add_edge` failure propagates. -/
def dfa_edges_strict (mq : List I → List O) (st : LState I O) :
    Except Unit (List (Edge I O)) :=
  st.S.foldlM
    (fun es s => st.A.foldlM (fun es a => dfa_edge_step mq st es s a) es)
    []

/-- Source `LStarMealyLearner.build_dfa`: the states are the distinct rows of
`S`, the initial state is the row of `ε`, and the edges come from the
swallowing edge loop. -/
def build_dfa (mq : List I → List O) (st : LState I O) : MealyHyp I O :=
  ⟨get_row mq st [], dfa_states mq st, dfa_edges mq st⟩

/-- Variant of `build_dfa` whose edge loop propagates the first `add_edge`
failure.  Used to state what the exception handler hides. -/
def build_dfa_strict (mq : List I → List O) (st : LState I O) :
    Except Unit (MealyHyp I O) := do
  let edges ← dfa_edges_strict mq st
  pure ⟨get_row mq st [], dfa_states mq st, edges⟩

/-- The counterexample integration at the end of `LStarMealyLearner.run`:
`for i in range(1, len(w) + 1): self.S.add(w[0:i])`. -/
def add_prefixes (st : LState I O) (w : List I) : LState I O :=
  { st with
    S := (List.range w.length).foldl
      (fun S i => addIfAbsent S (w.take (i + 1))) st.S }

/-- The inner refinement loop of `run`:
`while not (closed and consistent): step()`, with fuel for termination. -/
def inner_loop (mq : List I → List O) : Nat → LState I O → Option (LState I O)
  | n, st =>
    if is_closed mq st && is_consistent mq st then some st
    else
      match n with
      | 0 => none
      | n + 1 => inner_loop mq n (step mq st)

/-- Source `LStarMealyLearner.run`: refine until closed and consistent, build the
hypothesis, submit it to the teacher's equivalence query `eqq`, return it on
success, otherwise integrate the counterexample and repeat.  The teacher is
modelled as a function by its contract (spec section 4.1). -/
def run (mq : List I → List O) (eqq : MealyHyp I O → Bool × List I) :
    Nat → LState I O → Option (MealyHyp I O)
  | 0, _ => none
  | n + 1, st =>
    match inner_loop mq n st with
    | none => none
    | some st1 =>
      if (eqq (build_dfa mq st1)).1 then some (build_dfa mq st1)
      else run mq eqq n (add_prefixes st1 (eqq (build_dfa mq st1)).2)

/-- The learner states reachable from construction by any sequence of `step`
and counterexample-integration calls (`build_dfa` does not modify the
state). -/
inductive Reach (mq : List I → List O) (A : List I) : LState I O → Prop
  | init : Reach mq A (init A)
  | step {st} : Reach mq A st → Reach mq A (step mq st)
  | cex {st} (w : List I) : Reach mq A st → Reach mq A (add_prefixes st w)

end LStar

namespace TTT

mutual
/-- Modelled from the spec: the discrimination tree (spec section 3) lives in
the abstract TTT learner, absent from src.  Inner nodes carry a suffix and
children keyed by membership responses; leaves carry a state.  States are
identified with the index in their name (`State("s3")` is `3`). -/
inductive DTree (I O : Type) where
  | leaf (s : Nat)
  | inner (suffix : List I) (children : DKids I O)
/-- The keyed child list of an inner node, in insertion order. -/
inductive DKids (I O : Type) where
  | nil
  | cons (key : List O) (t : DTree I O) (rest : DKids I O)
end

/-- The state of `TTTMealyLearner`: the access-sequence map `S` (a dict in
insertion order; `__init__` starts it at `{(): State("s0")}`), the
discrimination tree, and the alphabet (the source stores one-symbol tuples;
we store the symbols). -/
structure TTTState (I O : Type) where
  S : List (List I × Nat)
  dtree : DTree I O
  A : List I

/-- Lookup in the access-sequence dict `S` by key. -/
def lookupS (S : List (List I × Nat)) (k : List I) : Option Nat :=
  (S.find? (fun p => decide (p.1 = k))).map Prod.snd

/-- Modelled from the spec: `get_access_sequence_from_state` of the abstract
TTT learner, absent from src — the access sequence stored for a state is its
key in `S`. -/
def revLookupS (S : List (List I × Nat)) (q : Nat) : Option (List I) :=
  (S.find? (fun p => decide (p.2 = q))).map Prod.fst

/-- Dict insertion at the back of a keyed child list (`prev_dtree_node.add`
for a key not yet present). -/
def appendKid : DKids I O → List O → DTree I O → DKids I O
  | .nil, k, t => .cons k t .nil
  | .cons k0 t0 rest, k, t => .cons k0 t0 (appendKid rest k t)

mutual
/-- The walk of `TTTMealyLearner.sift` (lines 14-47 of the source), on the
tree alone.  At an inner node with suffix `v` the branch is keyed by the
raw response `self.query(sequence + suffix)` — the full output word.  The
result is the reached state (or `fresh` when a new leaf was attached), the
updated tree, and whether a leaf was created. -/
def siftT (mq : List I → List O) (w : List I) (fresh : Nat) :
    DTree I O → Nat × DTree I O × Bool
  | .leaf s => (s, .leaf s, false)
  | .inner v cs =>
    let r := mq (w ++ v)
    match siftKids mq w fresh r cs with
    | some res => (res.1, .inner v res.2.1, res.2.2)
    | none => (fresh, .inner v (appendKid cs r (.leaf fresh)), true)
/-- The walk of `sift` along a keyed child list. -/
def siftKids (mq : List I → List O) (w : List I) (fresh : Nat) (r : List O) :
    DKids I O → Option (Nat × DKids I O × Bool)
  | .nil => none
  | .cons k t rest =>
    if k = r then
      let res := siftT mq w fresh t
      some (res.1, .cons k res.2.1 rest, res.2.2)
    else
      (siftKids mq w fresh r rest).map
        (fun res => (res.1, .cons k t res.2.1, res.2.2))
end

/-- Source `TTTMealyLearner.sift`: walk the tree; when the walk falls off, a
fresh state (named by the current size of `S`) is recorded in `S` under the
sifted word and a leaf for it is attached where the walk fell off; the
source asserts that the sifted word is not yet a key of `S`.  Assertion
failure is `none`. -/
def sift (mq : List I → List O) (st : TTTState I O) (w : List I) :
    Option (Nat × TTTState I O) :=
  let res := siftT mq w st.S.length st.dtree
  if res.2.2 then
    if lookupS st.S w = none then
      some (res.1, { st with S := st.S ++ [(w, st.S.length)],
                             dtree := res.2.1 })
    else none
  else some (res.1, { st with dtree := res.2.1 })

/-- The final output symbol of a response, as the length-one suffix of the
output word. -/
def lastSym (l : List O) : List O := l.drop (l.length - 1)

mutual
/-- Formalization of the claim's words for the sift walk: identical to
`siftT` except that the branch at an inner node is keyed by the final
output symbol of the response instead of the full output word. -/
def siftLastT (mq : List I → List O) (w : List I) (fresh : Nat) :
    DTree I O → Nat × DTree I O × Bool
  | .leaf s => (s, .leaf s, false)
  | .inner v cs =>
    let r := lastSym (mq (w ++ v))
    match siftLastKids mq w fresh r cs with
    | some res => (res.1, .inner v res.2.1, res.2.2)
    | none => (fresh, .inner v (appendKid cs r (.leaf fresh)), true)
/-- The claim-words walk along a keyed child list. -/
def siftLastKids (mq : List I → List O) (w : List I) (fresh : Nat)
    (r : List O) : DKids I O → Option (Nat × DKids I O × Bool)
  | .nil => none
  | .cons k t rest =>
    if k = r then
      let res := siftLastT mq w fresh t
      some (res.1, .cons k res.2.1 rest, res.2.2)
    else
      (siftLastKids mq w fresh r rest).map
        (fun res => (res.1, .cons k t res.2.1, res.2.2))
end

/-- Formalization of the claim's words for the whole of `sift`, built on
`siftLastT`. -/
def sift_last (mq : List I → List O) (st : TTTState I O) (w : List I) :
    Option (Nat × TTTState I O) :=
  let res := siftLastT mq w st.S.length st.dtree
  if res.2.2 then
    if lookupS st.S w = none then
      some (res.1, { st with S := st.S ++ [(w, st.S.length)],
                             dtree := res.2.1 })
    else none
  else some (res.1, { st with dtree := res.2.1 })

mutual
/-- The pure (mutation-free) reading of the sift walk: the state reached, or
`none` when the walk falls off the tree. -/
def walkT (mq : List I → List O) (w : List I) : DTree I O → Option Nat
  | .leaf s => some s
  | .inner v cs => walkKids mq w (mq (w ++ v)) cs
/-- The pure walk along a keyed child list. -/
def walkKids (mq : List I → List O) (w : List I) (r : List O) :
    DKids I O → Option Nat
  | .nil => none
  | .cons k t rest => if k = r then walkT mq w t else walkKids mq w r rest
end

mutual
/-- The states sitting at the leaves of a tree, left to right. -/
def leafStates : DTree I O → List Nat
  | .leaf s => [s]
  | .inner _ cs => kidsLeafStates cs
/-- The states at the leaves below a keyed child list. -/
def kidsLeafStates : DKids I O → List Nat
  | .nil => []
  | .cons _ t rest => leafStates t ++ kidsLeafStates rest
end

mutual
/-- Modelled from the spec: `DTree.getLeaf` followed by `leaf.replace` of the
abstract learner, absent from src — replace the (unique, by the tree
invariant) leaf holding state `q` by the tree `new`; `none` when no leaf
holds `q`. -/
def replaceLeaf : DTree I O → Nat → DTree I O → Option (DTree I O)
  | .leaf s, q, new => if s = q then some new else none
  | .inner v cs, q, new => (replaceKids cs q new).map (DTree.inner v)
/-- Leaf replacement along a keyed child list (first match). -/
def replaceKids : DKids I O → Nat → DTree I O → Option (DKids I O)
  | .nil, _, _ => none
  | .cons k t rest, q, new =>
    match replaceLeaf t q new with
    | some t2 => some (.cons k t2 rest)
    | none => (replaceKids rest q new).map (fun r2 => .cons k t r2)
end

/-- The transition maps of the hypothesis states, globally keyed by
(state, input symbol); each `MealyState.edges` is a dict, so insertion
with `override=True` replaces the entry in place. -/
def Edges (I O : Type) : Type := List ((Nat × I) × (List O × Nat))

/-- Dict insertion with replacement (`add_edge(..., override=True)`). -/
def insertOverride : Edges I O → (Nat × I) → (List O × Nat) → Edges I O
  | [], k, v => [(k, v)]
  | e :: es, k, v => if e.1 = k then (k, v) :: es else e :: insertOverride es k v

/-- One transition-building pass of `TTTMealyLearner.construct_hypothesis`
(lines 60-66): for each `(access_seq, state)` in a snapshot of `S` and each
alphabet symbol, sift `access_seq · a` (which may create states) and record
the edge with the raw membership answer on `access_seq · a` as output. -/
def add_transitions (mq : List I → List O) (st0 : TTTState I O)
    (es0 : Edges I O) : Option (TTTState I O × Edges I O) :=
  (st0.S.flatMap (fun p => st0.A.map (fun a => (p, a)))).foldlM
    (fun acc pa =>
      match sift mq acc.1 (pa.1.1 ++ [pa.2]) with
      | none => none
      | some r =>
        some (r.2, insertOverride acc.2 (pa.1.2, pa.2)
          (mq (pa.1.1 ++ [pa.2]), r.1)))
    (st0, es0)

/-- The `while items_added` loop of `construct_hypothesis`: repeat the
transition-building pass until the size of `S` is stable, with fuel. -/
def hyp_loop (mq : List I → List O) :
    Nat → TTTState I O → Edges I O → Option (TTTState I O × Edges I O)
  | 0, _, _ => none
  | n + 1, st, es =>
    (add_transitions mq st es).bind fun r =>
      if r.1.S.length = st.S.length then some r
      else hyp_loop mq n r.1 r.2

/-- The spanning-tree pass of `construct_hypothesis` (lines 77-83): for every
non-empty access sequence, look up the access sequence shortened by one
(`access_seq[0:-1]`) and add the overriding edge from its state; a failing
lookup is a `KeyError`, modelled as `none`. -/
def spanning (mq : List I → List O) (st : TTTState I O) (es : Edges I O) :
    Option (Edges I O) :=
  st.S.foldlM
    (fun es p =>
      if h : p.1 = [] then some es
      else
        (lookupS st.S p.1.dropLast).map fun anc =>
          insertOverride es (anc, p.1.getLast h)
            (mq (p.1.dropLast ++ [p.1.getLast h]), p.2))
    es

/-- Source `TTTMealyLearner.construct_hypothesis`: record the initial state
`S[()]`, run the transition loop, then the spanning-tree pass.  The edge
dicts live on the (persistent) `MealyState` objects, so the caller passes
the accumulated edges in. -/
def construct_hypothesis (mq : List I → List O) (fuel : Nat)
    (st : TTTState I O) (es0 : Edges I O) :
    Option (TTTState I O × Edges I O × Nat) :=
  (lookupS st.S []).bind fun q0 =>
    (hyp_loop mq fuel st es0).bind fun r =>
      (spanning mq r.1 r.2).map fun es2 => (r.1, es2, q0)

/-- Source `TTTMealyLearner.process_counterexample` (lines 90-131).  The
decomposition `(u, a, v)` and the state `q_old` to split come from helpers
of the abstract learner absent from src; modelled from the spec, we take the
split state `qOld`, the access sequence `uAcc = get_access_sequence(u)` and
the symbol `a` as inputs.  A fresh state named by the size of `S` is
recorded under `uAcc · a`, the leaf of `q_old` is replaced by a temporary
inner node with suffix `v` whose children, keyed by the full membership
responses on `acc · v`, are a new leaf for the fresh state and the old leaf;
the source asserts that the new key is absent from `S` and that the two
responses differ (assertion failure is `none`). -/
def process_counterexample (mq : List I → List O) (st : TTTState I O)
    (qOld : Nat) (uAcc : List I) (a : I) (v : List I) :
    Option (TTTState I O) :=
  let qNewKey := uAcc ++ [a]
  let qNewId := st.S.length
  (revLookupS st.S qOld).bind fun qOldKey =>
    if lookupS st.S qNewKey = none then
      let rOld := mq (qOldKey ++ v)
      let rNew := mq (qNewKey ++ v)
      if rNew = rOld then none
      else
        (replaceLeaf st.dtree qOld
          (.inner v (.cons rNew (.leaf qNewId)
            (.cons rOld (.leaf qOld) .nil)))).map
          fun t2 => { st with S := st.S ++ [(qNewKey, qNewId)], dtree := t2 }
    else none

/-- The states currently recorded in the access-sequence map. -/
def statesOf (st : TTTState I O) : List Nat := st.S.map Prod.snd

/-- The access sequences currently recorded. -/
def keysOf (S : List (List I × Nat)) : List (List I) := S.map Prod.fst

/-- The state/leaf correspondence invariant (spec section 8, invariant 5):
the states at the leaves of the tree are exactly the states of `S`, each
exactly once, and every state name is below the size of `S` (so the next
generated name is fresh). -/
abbrev TInv (st : TTTState I O) : Prop :=
  (leafStates st.dtree).Perm (statesOf st) ∧ (statesOf st).Nodup ∧
    ∀ q ∈ statesOf st, q < st.S.length

/-- Prefix-closedness of the access-sequence map: it has the empty key, and
the immediate prefix of every non-empty key is a key. -/
abbrev prefixClosedKeys (S : List (List I × Nat)) : Prop :=
  [] ∈ keysOf S ∧ ∀ k ∈ keysOf S, k ≠ [] → k.dropLast ∈ keysOf S

end TTT

/-! Concrete instances used by witnesses and counterexamples. -/

/-- A teacher whose SUL echoes its input (the one-state identity Mealy
machine). -/
def mqId : List Nat → List Nat := fun w => w

/-- A degenerate teacher answering the empty word to every query. -/
def mqConst : List Nat → List Nat := fun _ => []

/-- Output word of the Mealy machine `(delta, lam)` started in a given
state. -/
def sulRun (delta lam : Nat → Nat → Nat) : Nat → List Nat → List Nat
  | _, [] => []
  | q, a :: w => lam q a :: sulRun delta lam (delta q a) w

/-- Transition function of a five-plus-sink-state SUL on the alphabet
`{0, 1}`: from the start, inputs `0` and `1` lead to two states with equal
behaviour for two steps that then diverge. -/
def sulDelta : Nat → Nat → Nat := fun q a =>
  match q, a with
  | 0, 0 => 1 | 0, 1 => 2 | 1, 0 => 3 | 1, 1 => 5
  | 2, 0 => 4 | 2, 1 => 5 | _, _ => 5

/-- Output function of the diverging SUL: everything outputs `0` except
state 4 on input 0 (output 9) and the sink (output 7). -/
def sulLam : Nat → Nat → Nat := fun q a =>
  match q, a with
  | 4, 0 => 9 | 5, _ => 7 | _, _ => 0

/-- Membership oracle of the diverging SUL. -/
def mqSul : List Nat → List Nat := sulRun sulDelta sulLam 0

/-- An observation table over `A = {0, 1}` with `S = {ε}` that is consistent
but not closed, with two rows of `S·A` both missing from `S`. -/
def stepEx : LStar.LState Nat Nat := ⟨[[]], [[0], [1]], [0, 1], []⟩

/-- An observation table over `A = {0}` with `S = {ε}`, putting `(0)` in
`S·A`. -/
def rowEx : LStar.LState Nat Nat := ⟨[[]], [[0]], [0], []⟩

/-- A prefix-closed observation table over `A = {0, 1}` whose hypothesis has
an edge out of a non-initial state. -/
def dfaEx : LStar.LState Nat Nat := ⟨[[], [0], [0, 0]], [[0], [1]], [0, 1], []⟩

/-- The observation table of the diverging SUL on which `build_dfa` attempts
a conflicting edge: the rows of `(0)` and `(1)` coincide but their
successors' rows differ. -/
def conflictEx : LStar.LState Nat Nat :=
  ⟨[[], [0], [1], [0, 0], [1, 0]], [[0], [1]], [0, 1], []⟩

/-- A teacher equivalence oracle that accepts every hypothesis. -/
def eqqTrue : LStar.MealyHyp Nat Nat → Bool × List Nat := fun _ => (true, [])

/-- A discrimination tree whose root (suffix `(1)`) has one child keyed by
the output word `(1)` and one keyed by the output word `(0, 1)`. -/
def siftEx : TTT.TTTState Nat Nat :=
  ⟨[([], 0)], .inner [1] (.cons [1] (.leaf 9) (.cons [0, 1] (.leaf 5) .nil)),
    [0]⟩

/-- The initial TTT state: `S = {ε ↦ s0}` over a single-leaf tree. -/
def ttInit : TTT.TTTState Nat Nat := ⟨[([], 0)], .leaf 0, [0]⟩

/-- A TTT state whose tree walk falls off at the root: the root (suffix `ε`)
has a single child keyed `(5)`, which the identity SUL never answers on the
word `(0)`. -/
def fallEx : TTT.TTTState Nat Nat :=
  ⟨[([], 0)], .inner [] (.cons [5] (.leaf 0) .nil), [0]⟩

/-- The TTT state produced by splitting the initial state of `ttInit` with
the decomposition `(ε, 0, ε)` over the identity SUL. -/
def pcEx : TTT.TTTState Nat Nat :=
  ⟨[([], 0), ([0], 1)],
    .inner [] (.cons [0] (.leaf 1) (.cons [] (.leaf 0) .nil)), [0]⟩

/-! General lemmas about the set and dict embeddings. -/

theorem mem_addIfAbsent [DecidableEq α] (xs : List α) (x y : α) :
    y ∈ addIfAbsent xs x ↔ y ∈ xs ∨ y = x := by
  unfold addIfAbsent
  split
  · rename_i h
    constructor
    · exact Or.inl
    · rintro (h1 | rfl)
      · exact h1
      · exact h
  · simp

theorem subset_addIfAbsent [DecidableEq α] (xs : List α) (x : α) :
    xs ⊆ addIfAbsent xs x :=
  fun _ hy => (mem_addIfAbsent xs x _).2 (Or.inl hy)

theorem foldl_subset_of_step {f : List α → β → List α}
    (hf : ∀ S t, S ⊆ f S t) (ts : List β) (S : List α) : S ⊆ ts.foldl f S := by
  induction ts generalizing S with
  | nil => exact fun _ h => h
  | cons t ts ih => exact fun x hx => ih (f S t) (hf S t hx)

theorem mem_foldl_cond_add [DecidableEq α] (p : α → Prop) [DecidablePred p]
    (ts : List α) (S : List α) (x : α) :
    x ∈ ts.foldl (fun S t => if p t then S else addIfAbsent S t) S ↔
      x ∈ S ∨ (x ∈ ts ∧ ¬ p x) := by
  induction ts generalizing S with
  | nil => simp
  | cons t ts ih =>
    rw [List.foldl_cons, ih]
    by_cases hp : p t
    · rw [if_pos hp]
      constructor
      · rintro (h | h)
        · exact Or.inl h
        · exact Or.inr ⟨List.mem_cons_of_mem _ h.1, h.2⟩
      · rintro (h | ⟨hm, hnp⟩)
        · exact Or.inl h
        · rcases List.mem_cons.1 hm with rfl | hm2
          · exact absurd hp hnp
          · exact Or.inr ⟨hm2, hnp⟩
    · rw [if_neg hp]
      constructor
      · rintro (h | h)
        · rcases (mem_addIfAbsent S t x).1 h with h1 | rfl
          · exact Or.inl h1
          · exact Or.inr ⟨List.mem_cons_self _ _, hp⟩
        · exact Or.inr ⟨List.mem_cons_of_mem _ h.1, h.2⟩
      · rintro (h | ⟨hm, hnp⟩)
        · exact Or.inl ((mem_addIfAbsent S t x).2 (Or.inl h))
        · rcases List.mem_cons.1 hm with rfl | hm2
          · exact Or.inl ((mem_addIfAbsent S _ x).2 (Or.inr rfl))
          · exact Or.inr ⟨hm2, hnp⟩

theorem foldl_preserves {β χ : Type _} (P : β → Prop) :
    ∀ (ts : List χ) (f : β → χ → β),
      (∀ b, P b → ∀ t ∈ ts, P (f b t)) → ∀ b, P b → P (ts.foldl f b)
  | [], _, _, _, hb => hb
  | t :: ts, f, h, b, hb =>
    foldl_preserves P ts f
      (fun b hb t2 ht2 => h b hb t2 (List.mem_cons_of_mem _ ht2))
      (f b t) (h b hb t (List.mem_cons_self t ts))

/-! Lemmas about the L* embedding. -/

theorem get_row_st_spec (mq : List I → List O) (st : LStar.LState I O)
    (s : List I) :
    LStar.get_row_st mq st s = (LStar.get_row mq st s, st) := by
  have key : ∀ (E : List (List I)) (acc : List (List O)),
      E.foldl
        (fun acc e =>
          let q := LStar.query mq acc.2 (s ++ e)
          (acc.1 ++ [q.1], q.2))
        (acc, st) = (acc ++ E.map (fun e => mq (s ++ e)), st) := by
    intro E
    induction E with
    | nil => intro acc; simp
    | cons e E ih =>
      intro acc
      rw [List.foldl_cons]
      show E.foldl _ (acc ++ [mq (s ++ e)], st) = _
      rw [ih (acc ++ [mq (s ++ e)])]
      simp
  unfold LStar.get_row_st
  rw [key st.E []]
  simp [LStar.get_row, LStar.query]

/-- C6: the claim says every row lookup fills the missing entries of `T`; in
the source, `query` returns the teacher's answer before reaching its caching
block, so a row lookup returns the learner state — in particular the table
`T` — completely unchanged, and the table stays at its initial empty value
forever. -/
theorem C6_row_lookups_never_fill_T :
    (∀ (mq : List I → List O) (st : LStar.LState I O) (s : List I),
      (LStar.get_row_st mq st s).2.T = st.T ∧
        (LStar.get_row_st mq st s).2 = st) ∧
    ∀ A : List I, (LStar.init A : LStar.LState I O).T = [] := by
  constructor
  · intro mq st s
    rw [get_row_st_spec]
    exact ⟨rfl, rfl⟩
  · intro _
    rfl

/-- C1 counterexample: in the table `rowEx` over the identity SUL, the word
`(0)` lies in `S ∪ S·A` and its row entry for the suffix `e = (0)` is the
full output word `(0, 0)` of length 2, not the claimed projection `(0)` to
the suffix of length `|e| = 1`. -/
theorem C1_counterexample :
    [0] ∈ LStar.SUSA rowEx ∧
    LStar.get_row mqId rowEx [0] = [[0, 0]] ∧
    LStar.spec_row mqId rowEx.E [0] = [[0]] ∧
    LStar.get_row mqId rowEx [0] ≠ LStar.spec_row mqId rowEx.E [0] := by
  decide

/-- C1 amended: for every `s ∈ S ∪ S·A`, the row of `s` is the vector over
`e ∈ E` of the raw (unprojected) SUL output word on `s·e`; with a teacher
satisfying its length contract every entry has length `|s| + |e|`, not
`|e|`. -/
theorem C1_row_entries_are_full_outputs (mq : List I → List O)
    (st : LStar.LState I O) (hmq : ∀ w, (mq w).length = w.length)
    (s : List I) (hs : s ∈ LStar.SUSA st) :
    LStar.get_row mq st s = st.E.map (fun e => mq (s ++ e)) ∧
    ∀ e ∈ st.E, (mq (s ++ e)).length = s.length + e.length := by
  refine ⟨rfl, fun e _ => ?_⟩
  rw [hmq, List.length_append]

/-- C1 witness: the amended row description evaluated on the identity SUL at
the concrete table `rowEx` and `s = (0)`. -/
theorem C1_witness :
    ((∀ w, (mqId w).length = w.length) ∧ [0] ∈ LStar.SUSA rowEx) ∧
    LStar.get_row mqId rowEx [0] = rowEx.E.map (fun e => mqId ([0] ++ e)) ∧
    ∀ e ∈ rowEx.E, (mqId ([0] ++ e)).length = ([0] : List Nat).length + e.length :=
  ⟨⟨fun _ => rfl, by decide⟩,
   C1_row_entries_are_full_outputs mqId rowEx (fun _ => rfl) [0] (by decide)⟩

theorem closed_fix_S_mem (mq : List I → List O) (st : LStar.LState I O)
    (t : List I) :
    t ∈ (LStar.closed_fix mq st).S ↔
      t ∈ st.S ∨
        (t ∈ st.S.flatMap (fun s => st.A.map (fun a => s ++ [a])) ∧
          LStar.get_row mq st t ∉ st.S.map (LStar.get_row mq st)) := by
  unfold LStar.closed_fix
  exact mem_foldl_cond_add
    (fun t => LStar.get_row mq st t ∈ st.S.map (LStar.get_row mq st)) _ _ _

/-- C3 counterexample: the table `stepEx` over the identity SUL is consistent
and not closed, and a single `step` adds two new elements to `S` (both `(0)`
and `(1)`), not exactly one. -/
theorem C3_counterexample :
    LStar.is_consistent mqId stepEx = true ∧
    LStar.is_closed mqId stepEx = false ∧
    (LStar.step mqId stepEx).S = [[], [0], [1]] ∧
    (LStar.step mqId stepEx).S.length ≠ stepEx.S.length + 1 := by
  decide

/-- C3 amended: on a consistent, not-closed table (with `ε ∈ S`), a single
`step` adds to `S` every `t = s·a ∈ S·A` whose row differs from the row of
every member of `S` — the source's `break` is commented out, so not only
the first such `t` — and at least one element is added. -/
theorem C3_step_adds_every_unclosed_row (mq : List I → List O)
    (st : LStar.LState I O) (hS : [] ∈ st.S)
    (hcon : LStar.is_consistent mq st = true)
    (hcl : LStar.is_closed mq st = false) :
    (∀ t, t ∈ (LStar.step mq st).S ↔
      t ∈ st.S ∨
        (t ∈ st.S.flatMap (fun s => st.A.map (fun a => s ++ [a])) ∧
          LStar.get_row mq st t ∉ st.S.map (LStar.get_row mq st))) ∧
    (LStar.step mq st).S ≠ st.S := by
  have hstep : LStar.step mq st = LStar.closed_fix mq st := by
    unfold LStar.step
    rw [hcon, hcl]
    simp
  refine ⟨fun t => by rw [hstep]; exact closed_fix_S_mem mq st t, ?_⟩
  have hex : ∃ t0 ∈ LStar.SA st,
      LStar.get_row mq st t0 ∉ st.S.map (LStar.get_row mq st) := by
    by_contra hno
    push_neg at hno
    have hall : LStar.is_closed mq st = true := by
      unfold LStar.is_closed
      rw [List.all_eq_true]
      intro t ht
      exact decide_eq_true (hno t ht)
    rw [hall] at hcl
    exact Bool.noConfusion hcl
  obtain ⟨t0, ht0SA, ht0row⟩ := hex
  have ht0flat : t0 ∈ st.S.flatMap (fun s => st.A.map (fun a => s ++ [a])) := by
    have h2 := (List.mem_dedup.1 ht0SA)
    rcases List.mem_append.1 h2 with h | h
    · exact h
    · obtain ⟨a, ha, rfl⟩ := List.mem_map.1 h
      exact List.mem_flatMap.2 ⟨[], hS, List.mem_map.2 ⟨a, ha, rfl⟩⟩
  have ht0new : t0 ∉ st.S := fun hmem =>
    ht0row (List.mem_map.2 ⟨t0, hmem, rfl⟩)
  intro heq
  have hm : t0 ∈ (LStar.step mq st).S := by
    rw [hstep, closed_fix_S_mem]
    exact Or.inr ⟨ht0flat, ht0row⟩
  rw [heq] at hm
  exact ht0new hm

/-- C3 witness: the amended step description evaluated on the identity SUL
at the concrete table `stepEx`, where `(0)` is among the added words. -/
theorem C3_witness :
    ([] ∈ stepEx.S ∧ LStar.is_consistent mqId stepEx = true ∧
      LStar.is_closed mqId stepEx = false) ∧
    [0] ∈ (LStar.step mqId stepEx).S ∧
    (LStar.step mqId stepEx).S ≠ stepEx.S :=
  ⟨⟨by decide, by decide, by decide⟩,
   ((C3_step_adds_every_unclosed_row mqId stepEx (by decide) (by decide)
      (by decide)).1 [0]).2 (by decide),
   (C3_step_adds_every_unclosed_row mqId stepEx (by decide) (by decide)
      (by decide)).2⟩

theorem foldlM_except_ok {β χ : Type _} (f : β → χ → Except Unit β)
    (g : β → χ → β) (hfg : ∀ b t c, f b t = .ok c → g b t = c) :
    ∀ (ts : List χ) (b r : β), ts.foldlM f b = .ok r → ts.foldl g b = r
  | [], b, r, h => by
    cases (show Except.ok b = Except.ok r from h)
    rfl
  | t :: ts, b, r, h => by
    rw [List.foldlM_cons] at h
    cases hf : f b t with
    | error u =>
      rw [hf] at h
      exact Except.noConfusion (show Except.error u = Except.ok r from h)
    | ok b2 =>
      rw [hf] at h
      rw [List.foldl_cons, hfg b t b2 hf]
      exact foldlM_except_ok f g hfg ts b2 r h

theorem add_edge_ok_mem {es es2 : List (LStar.Edge I O)}
    {src : List (List O)} {a : I} {out : List O} {tgt : List (List O)}
    (h : LStar.add_edge es src a out tgt = .ok es2) :
    ∀ e ∈ es2, e ∈ es ∨ e = ⟨src, a, out, tgt⟩ := by
  unfold LStar.add_edge at h
  split at h
  · split at h
    · cases h
      exact fun e he => Or.inl he
    · exact Except.noConfusion h
  · cases h
    intro e he
    rcases List.mem_append.1 he with h1 | h1
    · exact Or.inl h1
    · exact Or.inr (List.mem_singleton.1 h1)

theorem add_edge_ok_pairwise {es es2 : List (LStar.Edge I O)}
    {src : List (List O)} {a : I} {out : List O} {tgt : List (List O)}
    (h : LStar.add_edge es src a out tgt = .ok es2)
    (hp : List.Pairwise
      (fun e1 e2 : LStar.Edge I O => ¬(e1.src = e2.src ∧ e1.inp = e2.inp)) es) :
    List.Pairwise
      (fun e1 e2 : LStar.Edge I O => ¬(e1.src = e2.src ∧ e1.inp = e2.inp))
      es2 := by
  unfold LStar.add_edge at h
  split at h
  · split at h
    · cases h
      exact hp
    · exact Except.noConfusion h
  · rename_i hfind
    cases h
    rw [List.pairwise_append]
    refine ⟨hp, List.pairwise_singleton _ _, ?_⟩
    intro e he e2 he2
    rcases List.mem_singleton.1 he2 with rfl
    have hne := List.find?_eq_none.1 hfind e he
    intro hcon
    apply hne
    simp [hcon.1, hcon.2]

theorem dfa_edge_step_ok_mem {mq : List I → List O} {st : LStar.LState I O}
    {es es2 : List (LStar.Edge I O)} {s : List I} {a : I}
    (h : LStar.dfa_edge_step mq st es s a = .ok es2) :
    ∀ e ∈ es2, e ∈ es ∨
      e = ⟨LStar.get_row mq st s, a, mq (s ++ [a]),
        LStar.get_row mq st (s ++ [a])⟩ := by
  simp only [LStar.dfa_edge_step] at h
  split at h
  · exact add_edge_ok_mem h
  · cases h
    exact fun e he => Or.inl he

/-- C5 counterexample: on the table `dfaEx` over the identity SUL, the edge
out of the state of row `(0)` carries the full output word `(0, 0)` of the
SUL on `(0, 0)`, not its last symbol `(0)`. -/
theorem C5_counterexample :
    ((LStar.build_dfa mqId dfaEx).edges.find?
        (fun e => decide (e.src = LStar.get_row mqId dfaEx [0]))).map
        LStar.Edge.out = some (mqId ([0] ++ [0])) ∧
    ((LStar.build_dfa mqId dfaEx).edges.find?
        (fun e => decide (e.src = LStar.get_row mqId dfaEx [0]))).map
        LStar.Edge.out ≠
      some ((mqId ([0] ++ [0])).drop (([0] ++ [0] : List Nat).length - 1)) := by
  decide

/-- C5 amended: every transition added by `build_dfa` comes from some
`s ∈ S` and `a ∈ A` and carries as its output the full SUL output word on
`s·a` (the raw membership answer), not its last symbol. -/
theorem C5_edges_carry_full_output (mq : List I → List O)
    (st : LStar.LState I O) :
    ∀ e ∈ (LStar.build_dfa mq st).edges, ∃ s, s ∈ st.S ∧ ∃ a, a ∈ st.A ∧
      e = ⟨LStar.get_row mq st s, a, mq (s ++ [a]),
        LStar.get_row mq st (s ++ [a])⟩ := by
  have main : ∀ e ∈ LStar.dfa_edges mq st, ∃ s, s ∈ st.S ∧ ∃ a, a ∈ st.A ∧
      e = ⟨LStar.get_row mq st s, a, mq (s ++ [a]),
        LStar.get_row mq st (s ++ [a])⟩ := by
    unfold LStar.dfa_edges
    refine foldl_preserves
      (fun es => ∀ e ∈ es, ∃ s, s ∈ st.S ∧ ∃ a, a ∈ st.A ∧
        e = (⟨LStar.get_row mq st s, a, mq (s ++ [a]),
          LStar.get_row mq st (s ++ [a])⟩ : LStar.Edge I O))
      st.S _ ?_ [] (fun e he => absurd he (List.not_mem_nil e))
    intro es hes s hs
    refine foldl_preserves
      (fun es => ∀ e ∈ es, ∃ s, s ∈ st.S ∧ ∃ a, a ∈ st.A ∧
        e = (⟨LStar.get_row mq st s, a, mq (s ++ [a]),
          LStar.get_row mq st (s ++ [a])⟩ : LStar.Edge I O))
      st.A _ ?_ es hes
    intro es1 hes1 a ha e
    cases hstep : LStar.dfa_edge_step mq st es1 s a with
    | ok es2 =>
      intro he
      rcases dfa_edge_step_ok_mem hstep e he with h1 | rfl
      · exact hes1 e h1
      · exact ⟨s, hs, a, ha, rfl⟩
    | error u =>
      intro he
      exact hes1 e he
  exact main

/-- C5 witness: the amended edge description applied to the edge out of the
initial state in the hypothesis of `dfaEx` over the identity SUL. -/
theorem C5_witness :
    (⟨LStar.get_row mqId dfaEx [], 0, mqId ([] ++ [0]),
        LStar.get_row mqId dfaEx ([] ++ [0])⟩ : LStar.Edge Nat Nat) ∈
      (LStar.build_dfa mqId dfaEx).edges ∧
    ∃ s, s ∈ dfaEx.S ∧ ∃ a, a ∈ dfaEx.A ∧
      (⟨LStar.get_row mqId dfaEx [], 0, mqId ([] ++ [0]),
          LStar.get_row mqId dfaEx ([] ++ [0])⟩ : LStar.Edge Nat Nat) =
        ⟨LStar.get_row mqId dfaEx s, a, mqId (s ++ [a]),
          LStar.get_row mqId dfaEx (s ++ [a])⟩ :=
  ⟨by decide, C5_edges_carry_full_output mqId dfaEx _ (by decide)⟩

/-- C4 counterexample: on the table `conflictEx` of the diverging SUL
`mqSul`, the edge loop attempts a conflicting edge (the strict variant
without the exception handler fails), yet `build_dfa` silently ignores it
and returns a machine with the three previously added edges. -/
theorem C4_counterexample :
    LStar.build_dfa_strict mqSul conflictEx = .error () ∧
    (LStar.build_dfa mqSul conflictEx).edges.map (fun e => (e.inp, e.out)) =
      [(0, [0]), (1, [0]), (0, [0, 0])] :=
  ⟨rfl, by decide⟩

/-- C4 amended: re-adding a duplicate edge is silently ignored, and a
conflicting edge (same source and input, different output or target) is
silently ignored as well — the first inserted edge wins, `build_dfa` never
raises, the returned machine has at most one edge per source state and
input, and whenever no conflict occurs (the strict variant succeeds) the
swallowing and the strict construction agree. -/
theorem C4_conflicting_edges_silently_ignored :
    (∀ (mq : List I → List O) (st : LStar.LState I O),
      List.Pairwise
        (fun e1 e2 : LStar.Edge I O => ¬(e1.src = e2.src ∧ e1.inp = e2.inp))
        (LStar.build_dfa mq st).edges) ∧
    (∀ (mq : List I → List O) (st : LStar.LState I O) (m : LStar.MealyHyp I O),
      LStar.build_dfa_strict mq st = .ok m → LStar.build_dfa mq st = m) := by
  constructor
  · intro mq st
    have main : List.Pairwise
        (fun e1 e2 : LStar.Edge I O => ¬(e1.src = e2.src ∧ e1.inp = e2.inp))
        (LStar.dfa_edges mq st) := by
      unfold LStar.dfa_edges
      refine foldl_preserves _ st.S _ ?_ [] List.Pairwise.nil
      intro es hes s hs
      refine foldl_preserves _ st.A _ ?_ es hes
      intro es1 hes1 a ha
      cases hstep : LStar.dfa_edge_step mq st es1 s a with
      | ok es2 =>
        have h2 : LStar.add_edge es1 (LStar.get_row mq st s) a
            ((LStar.query mq st (s ++ [a])).1) (LStar.get_row mq st (s ++ [a]))
              = .ok es2 ∨ es2 = es1 := by
          simp only [LStar.dfa_edge_step] at hstep
          split at hstep
          · exact Or.inl hstep
          · cases hstep
            exact Or.inr rfl
        rcases h2 with h2 | rfl
        · exact add_edge_ok_pairwise h2 hes1
        · exact hes1
      | error u => exact hes1
    exact main
  · intro mq st m h
    unfold LStar.build_dfa_strict at h
    cases hf : LStar.dfa_edges_strict mq st with
    | error u =>
      rw [hf] at h
      exact Except.noConfusion (show Except.error u = Except.ok m from h)
    | ok r =>
      rw [hf] at h
      have hm : (⟨LStar.get_row mq st [], LStar.dfa_states mq st, r⟩ :
          LStar.MealyHyp I O) = m := Except.ok.inj h
      have hedges : LStar.dfa_edges mq st = r := by
        unfold LStar.dfa_edges
        exact foldlM_except_ok
          (fun es s =>
            st.A.foldlM (fun es a => LStar.dfa_edge_step mq st es s a) es)
          (fun es s =>
            st.A.foldl
              (fun es a =>
                match LStar.dfa_edge_step mq st es s a with
                | .ok es2 => es2
                | .error _ => es)
              es)
          (fun es s c hc =>
            foldlM_except_ok
              (fun es a => LStar.dfa_edge_step mq st es s a)
              (fun es a =>
                match LStar.dfa_edge_step mq st es s a with
                | .ok es2 => es2
                | .error _ => es)
              (fun es1 a c1 hc1 => by
                show (match LStar.dfa_edge_step mq st es1 s a with
                      | .ok es2 => es2
                      | .error _ => es1) = c1
                rw [show LStar.dfa_edge_step mq st es1 s a = .ok c1 from hc1])
              st.A es c hc)
          st.S [] r hf
      rw [← hm]
      unfold LStar.build_dfa
      rw [hedges]

/-- C4 witness: a conflict-free table (the initial table over a one-letter
alphabet with the constant teacher) on which the strict construction
succeeds and agrees with `build_dfa`. -/
theorem C4_witness :
    LStar.build_dfa_strict mqConst (LStar.init [0]) =
      .ok (⟨[[]], [[[]]], [⟨[[]], 0, [], [[]]⟩]⟩ : LStar.MealyHyp Nat Nat) ∧
    LStar.build_dfa mqConst (LStar.init [0]) =
      (⟨[[]], [[[]]], [⟨[[]], 0, [], [[]]⟩]⟩ : LStar.MealyHyp Nat Nat) :=
  ⟨rfl,
   C4_conflicting_edges_silently_ignored.2 mqConst (LStar.init [0]) _ rfl⟩

/-- C7: `run` returns only a hypothesis for which the teacher's equivalence
query answered true, and the counterexample integration performed before the
next refinement round adds every prefix of the counterexample of length 1
through its full length to `S`. -/
theorem C7_run_equivalent_and_prefixes :
    (∀ (mq : List I → List O) (eqq : LStar.MealyHyp I O → Bool × List I)
      (n : Nat) (st : LStar.LState I O) (h : LStar.MealyHyp I O),
      LStar.run mq eqq n st = some h → (eqq h).1 = true) ∧
    (∀ (st : LStar.LState I O) (w : List I) (i : Nat), 1 ≤ i → i ≤ w.length →
      w.take i ∈ (LStar.add_prefixes st w).S) := by
  constructor
  · intro mq eqq n
    induction n with
    | zero =>
      intro st h hr
      exact Option.noConfusion hr
    | succ n ih =>
      intro st h
      rw [LStar.run]
      cases hin : LStar.inner_loop mq n st with
      | none =>
        intro hr
        exact Option.noConfusion hr
      | some st1 =>
        intro hr
        have hr2 : (if (eqq (LStar.build_dfa mq st1)).1 then
              some (LStar.build_dfa mq st1)
            else
              LStar.run mq eqq n
                (LStar.add_prefixes st1 (eqq (LStar.build_dfa mq st1)).2)) =
            some h := hr
        by_cases hb : (eqq (LStar.build_dfa mq st1)).1
        · rw [if_pos hb] at hr2
          injection hr2 with hr3
          rw [← hr3]
          exact hb
        · rw [if_neg hb] at hr2
          exact ih _ h hr2
  · intro st w i h1 h2
    have hmem : i - 1 ∈ List.range w.length := List.mem_range.2 (by omega)
    have key : ∀ (ts : List Nat) (S : List (List I)), i - 1 ∈ ts →
        w.take i ∈ ts.foldl (fun S j => addIfAbsent S (w.take (j + 1))) S := by
      intro ts
      induction ts with
      | nil => exact fun S h => absurd h (List.not_mem_nil _)
      | cons j ts ih =>
        intro S hm
        rcases List.mem_cons.1 hm with hj | hm2
        · have hstep : w.take i ∈ addIfAbsent S (w.take (j + 1)) := by
            have : j + 1 = i := by omega
            rw [this]
            exact (mem_addIfAbsent _ _ _).2 (Or.inr rfl)
          exact foldl_subset_of_step (fun S t => subset_addIfAbsent S _) ts _
            hstep
        · exact ih _ hm2
    exact key _ _ hmem

/-- C7 witness: with the constant teacher and the always-accepting
equivalence oracle, `run` terminates and both conclusions evaluate. -/
theorem C7_witness :
    LStar.run mqConst eqqTrue 1 (LStar.init [0]) =
      some (LStar.build_dfa mqConst (LStar.init [0])) ∧
    (eqqTrue (LStar.build_dfa mqConst (LStar.init [0]))).1 = true ∧
    ([0] : List Nat).take 1 ∈
      (LStar.add_prefixes (LStar.init [0] : LStar.LState Nat Nat) [0]).S :=
  ⟨by decide,
   C7_run_equivalent_and_prefixes.1 mqConst eqqTrue 1 (LStar.init [0]) _
     (by decide),
   C7_run_equivalent_and_prefixes.2 (LStar.init [0]) [0] 1 (by decide)
     (by decide)⟩

theorem consistency_fix_parts (mq : List I → List O)
    (st : LStar.LState I O) :
    (LStar.consistency_fix mq st).S = st.S ∧
    st.E ⊆ (LStar.consistency_fix mq st).E ∧
    (LStar.consistency_fix mq st).A = st.A := by
  simp only [LStar.consistency_fix]
  split
  · exact ⟨rfl, subset_addIfAbsent _ _, rfl⟩
  · exact ⟨rfl, fun x h => h, rfl⟩

theorem closed_fix_parts (mq : List I → List O) (st : LStar.LState I O) :
    st.S ⊆ (LStar.closed_fix mq st).S ∧
    (LStar.closed_fix mq st).E = st.E ∧ (LStar.closed_fix mq st).A = st.A := by
  refine ⟨?_, rfl, rfl⟩
  refine foldl_subset_of_step (fun S t => ?_) _ _
  dsimp only
  split
  · exact fun x h => h
  · exact subset_addIfAbsent _ _

theorem step_parts (mq : List I → List O) (st : LStar.LState I O) :
    st.S ⊆ (LStar.step mq st).S ∧ st.E ⊆ (LStar.step mq st).E ∧
    (LStar.step mq st).A = st.A := by
  have h1 : LStar.step mq st =
      (if LStar.is_closed mq st then
        (if LStar.is_consistent mq st then st else LStar.consistency_fix mq st)
      else
        LStar.closed_fix mq
          (if LStar.is_consistent mq st then st
           else LStar.consistency_fix mq st)) := rfl
  rw [h1]
  have hst1 : st.S ⊆ (if LStar.is_consistent mq st then st
        else LStar.consistency_fix mq st).S ∧
      st.E ⊆ (if LStar.is_consistent mq st then st
        else LStar.consistency_fix mq st).E ∧
      (if LStar.is_consistent mq st then st
        else LStar.consistency_fix mq st).A = st.A := by
    split
    · exact ⟨fun x h => h, fun x h => h, rfl⟩
    · exact ⟨(consistency_fix_parts mq st).1 ▸ fun x h => h,
        (consistency_fix_parts mq st).2.1, (consistency_fix_parts mq st).2.2⟩
  split
  · exact hst1
  · refine ⟨fun x hx => (closed_fix_parts mq _).1 (hst1.1 hx), ?_, ?_⟩
    · rw [(closed_fix_parts mq _).2.1]
      exact hst1.2.1
    · rw [(closed_fix_parts mq _).2.2]
      exact hst1.2.2

theorem add_prefixes_parts (st : LStar.LState I O) (w : List I) :
    st.S ⊆ (LStar.add_prefixes st w).S ∧
    (LStar.add_prefixes st w).E = st.E ∧
    (LStar.add_prefixes st w).A = st.A :=
  ⟨foldl_subset_of_step (fun S t => subset_addIfAbsent S _) _ _, rfl, rfl⟩

/-- C8: at every reachable learner state, the empty word is a member of `S`
and every alphabet symbol is a member of `E` as a one-symbol word; moreover
no operation (`step`, counterexample integration — `build_dfa` does not
touch the state) removes an element of `S` or `E`. -/
theorem C8_eps_in_S_and_alphabet_in_E (mq : List I → List O) (A : List I) :
    (∀ st : LStar.LState I O, LStar.Reach mq A st →
      ([] ∈ st.S ∧ ∀ a ∈ A, [a] ∈ st.E) ∧ st.A = A) ∧
    (∀ st : LStar.LState I O, st.S ⊆ (LStar.step mq st).S ∧
      st.E ⊆ (LStar.step mq st).E) ∧
    (∀ (st : LStar.LState I O) (w : List I),
      st.S ⊆ (LStar.add_prefixes st w).S ∧
      (LStar.add_prefixes st w).E = st.E) := by
  refine ⟨?_, fun st => ⟨(step_parts mq st).1, (step_parts mq st).2.1⟩,
    fun st w => ⟨(add_prefixes_parts st w).1, (add_prefixes_parts st w).2.1⟩⟩
  intro st hst
  induction hst with
  | init =>
    refine ⟨⟨List.mem_singleton.2 rfl, fun a ha => ?_⟩, rfl⟩
    exact List.mem_map.2 ⟨a, ha, rfl⟩
  | step hst ih =>
    obtain ⟨⟨h1, h2⟩, h3⟩ := ih
    exact ⟨⟨(step_parts mq _).1 h1, fun a ha => (step_parts mq _).2.1 (h2 a ha)⟩,
      ((step_parts mq _).2.2).trans h3⟩
  | cex w hst ih =>
    obtain ⟨⟨h1, h2⟩, h3⟩ := ih
    refine ⟨⟨(add_prefixes_parts _ w).1 h1, fun a ha => ?_⟩,
      ((add_prefixes_parts _ w).2.2).trans h3⟩
    rw [(add_prefixes_parts _ w).2.1]
    exact h2 a ha

/-- C8 witness: the invariant evaluated at the initial learner state over the
one-letter alphabet, reached by the `Reach.init` constructor. -/
theorem C8_witness :
    ([] ∈ (LStar.init [0] : LStar.LState Nat Nat).S ∧
      ∀ a ∈ [0], [a] ∈ (LStar.init [0] : LStar.LState Nat Nat).E) ∧
    (LStar.init [0] : LStar.LState Nat Nat).A = [0] :=
  (C8_eps_in_S_and_alphabet_in_E mqId [0]).1 (LStar.init [0]) LStar.Reach.init

/-! Lemmas about the TTT embedding. -/

theorem kidsLeafStates_appendKid :
    ∀ (cs : TTT.DKids I O) (k : List O) (t : TTT.DTree I O),
      TTT.kidsLeafStates (TTT.appendKid cs k t) =
        TTT.kidsLeafStates cs ++ TTT.leafStates t
  | .nil, k, t => by simp [TTT.appendKid, TTT.kidsLeafStates]
  | .cons k0 t0 rest, k, t => by
    simp [TTT.appendKid, TTT.kidsLeafStates,
      kidsLeafStates_appendKid rest k t]

mutual
theorem siftT_spec (mq : List I → List O) (w : List I) (fresh : Nat) :
    ∀ t : TTT.DTree I O,
      ((TTT.siftT mq w fresh t).2.2 = false →
        (TTT.siftT mq w fresh t).2.1 = t ∧
        TTT.walkT mq w t = some (TTT.siftT mq w fresh t).1) ∧
      ((TTT.siftT mq w fresh t).2.2 = true →
        TTT.walkT mq w t = none ∧ (TTT.siftT mq w fresh t).1 = fresh ∧
        (TTT.leafStates (TTT.siftT mq w fresh t).2.1).Perm
          (TTT.leafStates t ++ [fresh]))
  | .leaf s => by
    constructor
    · intro _
      exact ⟨rfl, rfl⟩
    · intro hb
      simp [TTT.siftT] at hb
  | .inner v cs => by
    have hs := siftKids_spec mq w fresh (mq (w ++ v)) cs
    cases hk : TTT.siftKids mq w fresh (mq (w ++ v)) cs with
    | none =>
      have he : TTT.siftT mq w fresh (.inner v cs) =
          (fresh, .inner v (TTT.appendKid cs (mq (w ++ v)) (.leaf fresh)),
            true) := by
        simp only [TTT.siftT, hk]
      rw [he]
      constructor
      · intro hfb
        simp at hfb
      · intro _
        refine ⟨hs.1 hk, rfl, ?_⟩
        show (TTT.kidsLeafStates
            (TTT.appendKid cs (mq (w ++ v)) (.leaf fresh))).Perm
          (TTT.kidsLeafStates cs ++ [fresh])
        rw [kidsLeafStates_appendKid]
        exact List.Perm.refl _
    | some res =>
      have he : TTT.siftT mq w fresh (.inner v cs) =
          (res.1, .inner v res.2.1, res.2.2) := by
        simp only [TTT.siftT, hk]
      rw [he]
      obtain ⟨hfalse, htrue⟩ := hs.2 res hk
      constructor
      · intro hb
        obtain ⟨hcs, hwalk⟩ := hfalse hb
        exact ⟨by rw [hcs], hwalk⟩
      · intro hb
        obtain ⟨hwalk, hfr, hperm⟩ := htrue hb
        exact ⟨hwalk, hfr, hperm⟩
theorem siftKids_spec (mq : List I → List O) (w : List I) (fresh : Nat)
    (r : List O) :
    ∀ cs : TTT.DKids I O,
      (TTT.siftKids mq w fresh r cs = none →
        TTT.walkKids mq w r cs = none) ∧
      ∀ res, TTT.siftKids mq w fresh r cs = some res →
        ((res.2.2 = false → res.2.1 = cs ∧
          TTT.walkKids mq w r cs = some res.1) ∧
         (res.2.2 = true → TTT.walkKids mq w r cs = none ∧ res.1 = fresh ∧
          (TTT.kidsLeafStates res.2.1).Perm
            (TTT.kidsLeafStates cs ++ [fresh])))
  | .nil => by
    constructor
    · intro _
      rfl
    · intro res hres
      exact Option.noConfusion hres
  | .cons k t rest => by
    by_cases hkr : k = r
    · have ht := siftT_spec mq w fresh t
      have he : TTT.siftKids mq w fresh r (.cons k t rest) =
          some ((TTT.siftT mq w fresh t).1,
            .cons k (TTT.siftT mq w fresh t).2.1 rest,
            (TTT.siftT mq w fresh t).2.2) := by
        simp only [TTT.siftKids]
        rw [if_pos hkr]
      constructor
      · intro hnone
        rw [he] at hnone
        exact Option.noConfusion hnone
      · intro res hres
        rw [he] at hres
        injection hres with hres2
        subst hres2
        constructor
        · intro hb
          obtain ⟨ht2, hwalk⟩ := ht.1 hb
          constructor
          · show TTT.DKids.cons k (TTT.siftT mq w fresh t).2.1 rest =
              .cons k t rest
            rw [ht2]
          · show (if k = r then TTT.walkT mq w t
              else TTT.walkKids mq w r rest) = _
            rw [if_pos hkr]
            exact hwalk
        · intro hb
          obtain ⟨hwalk, hfr, hperm⟩ := ht.2 hb
          refine ⟨?_, hfr, ?_⟩
          · show (if k = r then TTT.walkT mq w t
              else TTT.walkKids mq w r rest) = none
            rw [if_pos hkr]
            exact hwalk
          · show (TTT.leafStates (TTT.siftT mq w fresh t).2.1 ++
                TTT.kidsLeafStates rest).Perm
              ((TTT.leafStates t ++ TTT.kidsLeafStates rest) ++ [fresh])
            have h1 := hperm.append_right (TTT.kidsLeafStates rest)
            have h2 : ((TTT.leafStates t ++ [fresh]) ++
                TTT.kidsLeafStates rest).Perm
                ((TTT.leafStates t ++ TTT.kidsLeafStates rest) ++ [fresh]) := by
              rw [List.append_assoc, List.append_assoc]
              exact List.Perm.append_left _ List.perm_append_comm
            exact h1.trans h2
    · have hr2 := siftKids_spec mq w fresh r rest
      cases hrest : TTT.siftKids mq w fresh r rest with
      | none =>
        have he : TTT.siftKids mq w fresh r (.cons k t rest) = none := by
          simp only [TTT.siftKids]
          rw [if_neg hkr, hrest]
          rfl
        constructor
        · intro _
          show (if k = r then TTT.walkT mq w t
            else TTT.walkKids mq w r rest) = none
          rw [if_neg hkr]
          exact hr2.1 hrest
        · intro res hres
          rw [he] at hres
          exact Option.noConfusion hres
      | some res0 =>
        have he : TTT.siftKids mq w fresh r (.cons k t rest) =
            some (res0.1, .cons k t res0.2.1, res0.2.2) := by
          simp only [TTT.siftKids]
          rw [if_neg hkr, hrest]
          rfl
        constructor
        · intro hnone
          rw [he] at hnone
          exact Option.noConfusion hnone
        · intro res hres
          rw [he] at hres
          injection hres with hres2
          subst hres2
          obtain ⟨hfalse0, htrue0⟩ := hr2.2 res0 hrest
          constructor
          · intro hb
            obtain ⟨hcs0, hwalk0⟩ := hfalse0 hb
            constructor
            · show TTT.DKids.cons k t res0.2.1 = .cons k t rest
              rw [hcs0]
            · show (if k = r then TTT.walkT mq w t
                else TTT.walkKids mq w r rest) = _
              rw [if_neg hkr]
              exact hwalk0
          · intro hb
            obtain ⟨hwalk0, hfr0, hperm0⟩ := htrue0 hb
            refine ⟨?_, hfr0, ?_⟩
            · show (if k = r then TTT.walkT mq w t
                else TTT.walkKids mq w r rest) = none
              rw [if_neg hkr]
              exact hwalk0
            · show (TTT.leafStates t ++ TTT.kidsLeafStates res0.2.1).Perm
                ((TTT.leafStates t ++ TTT.kidsLeafStates rest) ++ [fresh])
              rw [List.append_assoc]
              exact List.Perm.append_left _ hperm0
end


theorem sift_of_walk_some (mq : List I → List O) (st : TTT.TTTState I O)
    (w : List I) (q : Nat) (hw : TTT.walkT mq w st.dtree = some q) :
    TTT.sift mq st w = some (q, st) := by
  have hs := siftT_spec mq w st.S.length st.dtree
  cases hb : (TTT.siftT mq w st.S.length st.dtree).2.2 with
  | true =>
    obtain ⟨hwalk, _, _⟩ := hs.2 hb
    rw [hwalk] at hw
    exact Option.noConfusion hw
  | false =>
    obtain ⟨ht, hwalk⟩ := hs.1 hb
    rw [hwalk] at hw
    injection hw with hw2
    simp only [TTT.sift]
    rw [hb]
    simp only [Bool.false_eq_true, if_false]
    rw [ht, hw2]

theorem sift_of_walk_none (mq : List I → List O) (st : TTT.TTTState I O)
    (w : List I) (hw : TTT.walkT mq w st.dtree = none)
    (hl : TTT.lookupS st.S w = none) :
    TTT.sift mq st w =
      some (st.S.length,
        { st with S := st.S ++ [(w, st.S.length)],
                  dtree := (TTT.siftT mq w st.S.length st.dtree).2.1 }) ∧
    (TTT.leafStates (TTT.siftT mq w st.S.length st.dtree).2.1).Perm
      (TTT.leafStates st.dtree ++ [st.S.length]) := by
  have hs := siftT_spec mq w st.S.length st.dtree
  cases hb : (TTT.siftT mq w st.S.length st.dtree).2.2 with
  | false =>
    obtain ⟨_, hwalk⟩ := hs.1 hb
    rw [hw] at hwalk
    exact Option.noConfusion hwalk
  | true =>
    obtain ⟨_, hfr, hperm⟩ := hs.2 hb
    refine ⟨?_, hperm⟩
    simp only [TTT.sift]
    rw [hb]
    simp only [if_true]
    rw [if_pos hl, hfr]

/-- C2 counterexample: in the tree of `siftEx` (root suffix `(1)`, children
keyed by the output words `(1)` and `(0, 1)`), sifting `(0)` over the
identity SUL queries `(0, 1)` and descends by the full response `(0, 1)`
to the leaf of state 5; descending by the final output symbol of that query,
as the claim states, would reach the leaf of state 9 instead. -/
theorem C2_counterexample :
    mqId ([0] ++ [1]) = [0, 1] ∧
    TTT.lastSym (mqId ([0] ++ [1])) = ([1] : List Nat) ∧
    (TTT.sift mqId siftEx [0]).map (fun p => p.1) = some 5 ∧
    (TTT.sift_last mqId siftEx [0]).map (fun p => p.1) = some 9 ∧
    (5 : Nat) ≠ 9 :=
  ⟨rfl, rfl, rfl, rfl, by decide⟩

/-- C2 amended: `sift(w)` walks from the root and at every inner node with
suffix `v` descends to the child keyed by the full output word of the
membership query on `w·v` (not its final symbol); when the walk reaches a
leaf it returns the leaf's state with nothing changed, and when no matching
child exists it creates a fresh state whose access sequence is `w`, records
`w` in the access-sequence map, attaches exactly one new leaf for it, and
returns the fresh state. -/
theorem C2_sift_descends_by_full_output (mq : List I → List O)
    (st : TTT.TTTState I O) (w : List I) :
    (∀ q, TTT.walkT mq w st.dtree = some q →
      TTT.sift mq st w = some (q, st)) ∧
    (TTT.walkT mq w st.dtree = none → TTT.lookupS st.S w = none →
      ∃ st2, TTT.sift mq st w = some (st.S.length, st2) ∧
        st2.S = st.S ++ [(w, st.S.length)] ∧
        (TTT.leafStates st2.dtree).Perm
          (TTT.leafStates st.dtree ++ [st.S.length])) := by
  constructor
  · exact fun q hq => sift_of_walk_some mq st w q hq
  · intro hw hl
    obtain ⟨heq, hperm⟩ := sift_of_walk_none mq st w hw hl
    exact ⟨_, heq, rfl, hperm⟩

/-- C2 witness: the amended sift description evaluated on the identity SUL
at `fallEx`, where the walk falls off the root. -/
theorem C2_witness :
    (TTT.walkT mqId [0] fallEx.dtree = none ∧
      TTT.lookupS fallEx.S [0] = none) ∧
    ∃ st2, TTT.sift mqId fallEx [0] = some (fallEx.S.length, st2) ∧
      st2.S = fallEx.S ++ [([0], fallEx.S.length)] ∧
      (TTT.leafStates st2.dtree).Perm
        (TTT.leafStates fallEx.dtree ++ [fallEx.S.length]) :=
  ⟨⟨rfl, rfl⟩, (C2_sift_descends_by_full_output mqId fallEx [0]).2 rfl rfl⟩

theorem foldlM_option_preserves {β χ : Type _} (P : β → Prop) :
    ∀ (ts : List χ) (f : β → χ → Option β),
      (∀ b, P b → ∀ t ∈ ts, ∀ c, f b t = some c → P c) →
      ∀ b r, P b → ts.foldlM f b = some r → P r
  | [], _, _, b, r, hb, hr => by
    cases (show some b = some r from hr)
    exact hb
  | t :: ts, f, h, b, r, hb, hr => by
    rw [List.foldlM_cons] at hr
    cases hf : f b t with
    | none =>
      rw [hf] at hr
      exact Option.noConfusion (show (none : Option _) = some r from hr)
    | some b2 =>
      rw [hf] at hr
      exact foldlM_option_preserves P ts f
        (fun b hb t2 ht2 c hc => h b hb t2 (List.mem_cons_of_mem _ ht2) c hc)
        b2 r (h b hb t (List.mem_cons_self t ts) b2 hf) hr

theorem foldlM_option_isSome {β χ : Type _} :
    ∀ (ts : List χ) (f : β → χ → Option β),
      (∀ b, ∀ t ∈ ts, (f b t).isSome) → ∀ b, (ts.foldlM f b).isSome
  | [], _, _, b => by
    rw [List.foldlM_nil]
    rfl
  | t :: ts, f, h, b => by
    rw [List.foldlM_cons]
    cases hf : f b t with
    | none =>
      have := h b t (List.mem_cons_self t ts)
      rw [hf] at this
      exact absurd this (by simp)
    | some b2 =>
      exact foldlM_option_isSome ts f
        (fun b t2 ht2 => h b t2 (List.mem_cons_of_mem _ ht2)) b2

theorem lookupS_isSome_of_mem (S : List (List I × Nat)) (k : List I)
    (h : k ∈ TTT.keysOf S) : (TTT.lookupS S k).isSome := by
  obtain ⟨p, hp, hpk⟩ := List.mem_map.1 h
  have hfind : (S.find? (fun p => decide (p.1 = k))).isSome :=
    List.find?_isSome.2 ⟨p, hp, by simp [hpk]⟩
  cases hf : S.find? (fun p => decide (p.1 = k)) with
  | none =>
    rw [hf] at hfind
    exact absurd hfind (by simp)
  | some p2 => simp [TTT.lookupS, hf]

theorem sift_S_shape (mq : List I → List O) (st : TTT.TTTState I O)
    (w : List I) (q : Nat) (st2 : TTT.TTTState I O)
    (h : TTT.sift mq st w = some (q, st2)) :
    (st2.S = st.S ∧ st2.dtree = st.dtree) ∨
    (st2.S = st.S ++ [(w, st.S.length)] ∧ q = st.S.length ∧
      (TTT.leafStates st2.dtree).Perm
        (TTT.leafStates st.dtree ++ [st.S.length])) := by
  have hs := siftT_spec mq w st.S.length st.dtree
  revert h
  simp only [TTT.sift]
  cases hb : (TTT.siftT mq w st.S.length st.dtree).2.2 with
  | false =>
    simp only [Bool.false_eq_true, if_false]
    intro h
    injection h with h2
    injection h2 with hq hst
    obtain ⟨ht, _⟩ := hs.1 hb
    left
    rw [← hst]
    exact ⟨rfl, ht⟩
  | true =>
    simp only [if_true]
    intro h
    split at h
    · injection h with h2
      injection h2 with hq hst
      obtain ⟨_, hfr, hperm⟩ := hs.2 hb
      right
      rw [← hst]
      refine ⟨rfl, ?_, hperm⟩
      rw [← hq]
      exact hfr
    · exact Option.noConfusion h

theorem statesOf_append_fresh (st st2 : TTT.TTTState I O) (w : List I)
    (hS : st2.S = st.S ++ [(w, st.S.length)]) :
    TTT.statesOf st2 = TTT.statesOf st ++ [st.S.length] := by
  unfold TTT.statesOf
  rw [hS]
  simp

theorem TInv_extend (st st2 : TTT.TTTState I O) (w : List I)
    (hinv : TTT.TInv st) (hS : st2.S = st.S ++ [(w, st.S.length)])
    (hperm : (TTT.leafStates st2.dtree).Perm
      (TTT.leafStates st.dtree ++ [st.S.length])) : TTT.TInv st2 := by
  obtain ⟨hp, hn, hb⟩ := hinv
  have hst : TTT.statesOf st2 = TTT.statesOf st ++ [st.S.length] :=
    statesOf_append_fresh st st2 w hS
  have hlen : st2.S.length = st.S.length + 1 := by
    rw [hS]
    simp
  refine ⟨?_, ?_, ?_⟩
  · rw [hst]
    exact hperm.trans (hp.append_right _)
  · rw [hst, List.nodup_append]
    refine ⟨hn, List.nodup_singleton _, ?_⟩
    intro x hx hx2
    rcases List.mem_singleton.1 hx2 with rfl
    exact absurd (hb _ hx) (lt_irrefl _)
  · intro q hq
    rw [hlen]
    rw [hst] at hq
    rcases List.mem_append.1 hq with hq | hq
    · exact Nat.lt_succ_of_lt (hb q hq)
    · rcases List.mem_singleton.1 hq with rfl
      exact Nat.lt_succ_self _

theorem sift_TInv (mq : List I → List O) (st : TTT.TTTState I O) (w : List I)
    (q : Nat) (st2 : TTT.TTTState I O) (hinv : TTT.TInv st)
    (h : TTT.sift mq st w = some (q, st2)) : TTT.TInv st2 := by
  rcases sift_S_shape mq st w q st2 h with ⟨hS, hT⟩ | ⟨hS, _, hperm⟩
  · obtain ⟨hp, hn, hb⟩ := hinv
    have hst : TTT.statesOf st2 = TTT.statesOf st := by
      unfold TTT.statesOf
      rw [hS]
    refine ⟨?_, ?_, ?_⟩
    · rw [hst, hT]
      exact hp
    · rw [hst]
      exact hn
    · intro q2 hq2
      rw [hst] at hq2
      rw [hS]
      exact hb q2 hq2
  · exact TInv_extend st st2 w hinv hS hperm

theorem keysOf_append (S : List (List I × Nat)) (x : List I × Nat) :
    TTT.keysOf (S ++ [x]) = TTT.keysOf S ++ [x.1] := by
  unfold TTT.keysOf
  simp

theorem prefixClosed_snoc (S : List (List I × Nat)) (k0 : List I) (a : I)
    (n : Nat) (hpc : TTT.prefixClosedKeys S) (hk0 : k0 ∈ TTT.keysOf S) :
    TTT.prefixClosedKeys (S ++ [(k0 ++ [a], n)]) := by
  obtain ⟨he, hcl⟩ := hpc
  rw [TTT.prefixClosedKeys, keysOf_append]
  constructor
  · exact List.mem_append.2 (Or.inl he)
  · intro k hk hne
    rcases List.mem_append.1 hk with hk | hk
    · exact List.mem_append.2 (Or.inl (hcl k hk hne))
    · rcases List.mem_singleton.1 hk with rfl
      rw [List.dropLast_concat]
      exact List.mem_append.2 (Or.inl hk0)

theorem add_transitions_preserves (mq : List I → List O)
    (P : TTT.TTTState I O → Prop)
    (hP : ∀ (st : TTT.TTTState I O) (ac : List I) (a : I) (q : Nat)
      (st2 : TTT.TTTState I O), P st → ac ∈ TTT.keysOf st.S →
      TTT.sift mq st (ac ++ [a]) = some (q, st2) → P st2)
    (st0 : TTT.TTTState I O) (es0 : TTT.Edges I O)
    (r : TTT.TTTState I O × TTT.Edges I O) (hp : P st0)
    (h : TTT.add_transitions mq st0 es0 = some r) :
    P r.1 ∧ TTT.keysOf st0.S ⊆ TTT.keysOf r.1.S := by
  unfold TTT.add_transitions at h
  refine foldlM_option_preserves
    (fun acc : TTT.TTTState I O × TTT.Edges I O =>
      P acc.1 ∧ TTT.keysOf st0.S ⊆ TTT.keysOf acc.1.S)
    (st0.S.flatMap (fun p => st0.A.map (fun a => (p, a)))) _ ?_
    (st0, es0) r ⟨hp, fun k hk => hk⟩ h
  intro acc hacc pa hpa c hc
  obtain ⟨hp1, hsub⟩ := hacc
  cases hsift : TTT.sift mq acc.1 (pa.1.1 ++ [pa.2]) with
  | none =>
    rw [hsift] at hc
    exact Option.noConfusion hc
  | some r2 =>
    rw [hsift] at hc
    injection hc with hc2
    have hkey : pa.1.1 ∈ TTT.keysOf st0.S := by
      obtain ⟨p, hpmem, hpa2⟩ := List.mem_flatMap.1 hpa
      obtain ⟨a, _, rfl⟩ := List.mem_map.1 hpa2
      exact List.mem_map.2 ⟨p, hpmem, rfl⟩
    have hstep : P r2.2 :=
      hP acc.1 pa.1.1 pa.2 r2.1 r2.2 hp1 (hsub hkey) hsift
    have hmono : TTT.keysOf acc.1.S ⊆ TTT.keysOf r2.2.S := by
      rcases sift_S_shape mq acc.1 (pa.1.1 ++ [pa.2]) r2.1 r2.2 hsift with
        ⟨hS, _⟩ | ⟨hS, _, _⟩
      · intro k hk
        rw [TTT.keysOf, hS]
        exact hk
      · intro k hk
        rw [TTT.keysOf, hS, ← TTT.keysOf, keysOf_append]
        exact List.mem_append.2 (Or.inl hk)
    rw [← hc2]
    exact ⟨hstep, fun k hk => hmono (hsub hk)⟩

theorem hyp_loop_preserves (mq : List I → List O)
    (P : TTT.TTTState I O → Prop)
    (hP : ∀ (st : TTT.TTTState I O) (ac : List I) (a : I) (q : Nat)
      (st2 : TTT.TTTState I O), P st → ac ∈ TTT.keysOf st.S →
      TTT.sift mq st (ac ++ [a]) = some (q, st2) → P st2) :
    ∀ (fuel : Nat) (st : TTT.TTTState I O) (es : TTT.Edges I O)
      (r : TTT.TTTState I O × TTT.Edges I O),
      P st → TTT.hyp_loop mq fuel st es = some r → P r.1
  | 0, _, _, _, _, h => Option.noConfusion h
  | fuel + 1, st, es, r, hp, h => by
    cases hadd : TTT.add_transitions mq st es with
    | none =>
      rw [TTT.hyp_loop, hadd] at h
      exact Option.noConfusion h
    | some r0 =>
      rw [TTT.hyp_loop, hadd] at h
      have hpres := add_transitions_preserves mq P hP st es r0 hp hadd
      have h2 : (if r0.1.S.length = st.S.length then some r0
          else TTT.hyp_loop mq fuel r0.1 r0.2) = some r := h
      split at h2
      · cases h2
        exact hpres.1
      · exact hyp_loop_preserves mq P hP fuel r0.1 r0.2 r hpres.1 h2

mutual
theorem replaceLeaf_perm (q : Nat) (new : TTT.DTree I O) :
    ∀ (t t2 : TTT.DTree I O), TTT.replaceLeaf t q new = some t2 →
      (TTT.leafStates t2 ++ [q]).Perm
        (TTT.leafStates t ++ TTT.leafStates new)
  | .leaf s, t2, h => by
    revert h
    simp only [TTT.replaceLeaf]
    split
    · rename_i hs
      intro h
      injection h with h2
      subst h2
      show (TTT.leafStates new ++ [q]).Perm ([s] ++ TTT.leafStates new)
      rw [hs]
      exact List.perm_append_comm
    · intro h
      exact Option.noConfusion h
  | .inner v cs, t2, h => by
    revert h
    simp only [TTT.replaceLeaf]
    cases hk : TTT.replaceKids cs q new with
    | none =>
      intro h
      exact Option.noConfusion h
    | some cs2 =>
      intro h
      injection h with h2
      subst h2
      show (TTT.kidsLeafStates cs2 ++ [q]).Perm
        (TTT.kidsLeafStates cs ++ TTT.leafStates new)
      exact replaceKids_perm q new cs cs2 hk
theorem replaceKids_perm (q : Nat) (new : TTT.DTree I O) :
    ∀ (cs cs2 : TTT.DKids I O), TTT.replaceKids cs q new = some cs2 →
      (TTT.kidsLeafStates cs2 ++ [q]).Perm
        (TTT.kidsLeafStates cs ++ TTT.leafStates new)
  | .nil, _, h => Option.noConfusion h
  | .cons k t rest, cs2, h => by
    revert h
    simp only [TTT.replaceKids]
    cases ht : TTT.replaceLeaf t q new with
    | some t1 =>
      intro h
      injection h with h2
      subst h2
      show ((TTT.leafStates t1 ++ TTT.kidsLeafStates rest) ++ [q]).Perm
        ((TTT.leafStates t ++ TTT.kidsLeafStates rest) ++ TTT.leafStates new)
      have ih := replaceLeaf_perm q new t t1 ht
      have p1 : ((TTT.leafStates t1 ++ TTT.kidsLeafStates rest) ++ [q]).Perm
          ((TTT.leafStates t1 ++ [q]) ++ TTT.kidsLeafStates rest) := by
        rw [List.append_assoc, List.append_assoc]
        exact List.Perm.append_left _ List.perm_append_comm
      have p2 : ((TTT.leafStates t1 ++ [q]) ++ TTT.kidsLeafStates rest).Perm
          ((TTT.leafStates t ++ TTT.kidsLeafStates rest) ++
            TTT.leafStates new) := by
        refine (ih.append_right (TTT.kidsLeafStates rest)).trans ?_
        rw [List.append_assoc, List.append_assoc]
        exact List.Perm.append_left _ List.perm_append_comm
      exact p1.trans p2
    | none =>
      cases hrest : TTT.replaceKids rest q new with
      | none =>
        intro h
        exact Option.noConfusion h
      | some rest2 =>
        intro h
        injection h with h2
        subst h2
        show ((TTT.leafStates t ++ TTT.kidsLeafStates rest2) ++ [q]).Perm
          ((TTT.leafStates t ++ TTT.kidsLeafStates rest) ++
            TTT.leafStates new)
        have ih := replaceKids_perm q new rest rest2 hrest
        rw [List.append_assoc, List.append_assoc]
        exact List.Perm.append_left _ ih
end

theorem process_counterexample_spec (mq : List I → List O)
    (st : TTT.TTTState I O) (qOld : Nat) (uAcc : List I) (a : I)
    (v : List I) (st2 : TTT.TTTState I O)
    (h : TTT.process_counterexample mq st qOld uAcc a v = some st2) :
    st2.S = st.S ++ [(uAcc ++ [a], st.S.length)] ∧ st2.A = st.A ∧
    (TTT.leafStates st2.dtree ++ [qOld]).Perm
      (TTT.leafStates st.dtree ++ [st.S.length, qOld]) := by
  simp only [TTT.process_counterexample] at h
  cases hrev : TTT.revLookupS st.S qOld with
  | none =>
    rw [hrev] at h
    exact Option.noConfusion h
  | some qOldKey =>
    rw [hrev] at h
    replace h : (if TTT.lookupS st.S (uAcc ++ [a]) = none then
        if mq ((uAcc ++ [a]) ++ v) = mq (qOldKey ++ v) then none
        else
          (TTT.replaceLeaf st.dtree qOld
            (.inner v (.cons (mq ((uAcc ++ [a]) ++ v)) (.leaf st.S.length)
              (.cons (mq (qOldKey ++ v)) (.leaf qOld) .nil)))).map
            fun t2 => { st with S := st.S ++ [(uAcc ++ [a], st.S.length)],
                                dtree := t2 }
      else none) = some st2 := h
    split at h
    · split at h
      · exact Option.noConfusion h
      · cases hrep : TTT.replaceLeaf st.dtree qOld
            (.inner v (.cons (mq ((uAcc ++ [a]) ++ v)) (.leaf st.S.length)
              (.cons (mq (qOldKey ++ v)) (.leaf qOld) .nil))) with
        | none =>
          rw [hrep] at h
          exact Option.noConfusion h
        | some t2 =>
          rw [hrep] at h
          injection h with h2
          subst h2
          refine ⟨rfl, rfl, ?_⟩
          exact replaceLeaf_perm qOld
            (.inner v (.cons (mq ((uAcc ++ [a]) ++ v)) (.leaf st.S.length)
              (.cons (mq (qOldKey ++ v)) (.leaf qOld) .nil)))
            st.dtree t2 hrep
    · exact Option.noConfusion h

theorem spanning_isSome (mq : List I → List O) (st : TTT.TTTState I O)
    (hpc : TTT.prefixClosedKeys st.S) (es : TTT.Edges I O) :
    (TTT.spanning mq st es).isSome := by
  unfold TTT.spanning
  refine foldlM_option_isSome st.S _ ?_ es
  intro b p hp
  dsimp only
  split
  · rfl
  · rename_i hne
    have hdrop : p.1.dropLast ∈ TTT.keysOf st.S :=
      hpc.2 p.1 (List.mem_map.2 ⟨p, hp, rfl⟩) hne
    have hlook := lookupS_isSome_of_mem st.S p.1.dropLast hdrop
    cases hf : TTT.lookupS st.S p.1.dropLast with
    | none =>
      rw [hf] at hlook
      exact absurd hlook (by simp)
    | some anc => rfl

/-- C9: the TTT operations preserve the bijection between the states of the
access-sequence map and the leaves of the discrimination tree (the states at
the leaves are a permutation of the duplicate-free states of `S`, with every
name below the size of `S`): `sift` either changes nothing or records exactly
one fresh state with one new leaf, `construct_hypothesis` preserves the
bijection, and `process_counterexample` records exactly one fresh state with
one new leaf while reattaching the old one. -/
theorem C9_states_biject_leaves (mq : List I → List O) :
    (∀ (st : TTT.TTTState I O) (w : List I) (q : Nat)
      (st2 : TTT.TTTState I O), TTT.TInv st →
      TTT.sift mq st w = some (q, st2) →
      TTT.TInv st2 ∧ (st2.S = st.S ∨ st2.S = st.S ++ [(w, st.S.length)])) ∧
    (∀ (fuel : Nat) (st : TTT.TTTState I O) (es0 : TTT.Edges I O)
      (r : TTT.TTTState I O × TTT.Edges I O × Nat), TTT.TInv st →
      TTT.construct_hypothesis mq fuel st es0 = some r → TTT.TInv r.1) ∧
    (∀ (st : TTT.TTTState I O) (qOld : Nat) (uAcc : List I) (a : I)
      (v : List I) (st2 : TTT.TTTState I O), TTT.TInv st →
      TTT.process_counterexample mq st qOld uAcc a v = some st2 →
      TTT.TInv st2 ∧ st2.S = st.S ++ [(uAcc ++ [a], st.S.length)]) := by
  refine ⟨?_, ?_, ?_⟩
  · intro st w q st2 hinv hsift
    refine ⟨sift_TInv mq st w q st2 hinv hsift, ?_⟩
    rcases sift_S_shape mq st w q st2 hsift with ⟨hS, _⟩ | ⟨hS, _, _⟩
    · exact Or.inl hS
    · exact Or.inr hS
  · intro fuel st es0 r hinv hcon
    simp only [TTT.construct_hypothesis] at hcon
    cases hq0 : TTT.lookupS st.S [] with
    | none =>
      rw [hq0] at hcon
      exact Option.noConfusion hcon
    | some q0 =>
      rw [hq0] at hcon
      cases hloop : TTT.hyp_loop mq fuel st es0 with
      | none =>
        rw [hloop] at hcon
        exact Option.noConfusion
          (show (none : Option (TTT.TTTState I O × TTT.Edges I O × Nat)) =
            some r from hcon)
      | some r0 =>
        rw [hloop] at hcon
        replace hcon : (TTT.spanning mq r0.1 r0.2).map
            (fun es2 => (r0.1, es2, q0)) = some r := hcon
        cases hspan : TTT.spanning mq r0.1 r0.2 with
        | none =>
          rw [hspan] at hcon
          exact Option.noConfusion
            (show (none : Option (TTT.TTTState I O × TTT.Edges I O × Nat)) =
              some r from hcon)
        | some es2 =>
          rw [hspan] at hcon
          have hcon2 : some (r0.1, es2, q0) = some r := hcon
          injection hcon2 with hcon3
          have hT : TTT.TInv r0.1 := hyp_loop_preserves mq TTT.TInv
            (fun st ac a q st2 hi _ hs =>
              sift_TInv mq st (ac ++ [a]) q st2 hi hs)
            fuel st es0 r0 hinv hloop
          rw [← hcon3]
          exact hT
  · intro st qOld uAcc a v st2 hinv hproc
    obtain ⟨hS, _, hperm⟩ :=
      process_counterexample_spec mq st qOld uAcc a v st2 hproc
    have hperm2 : (TTT.leafStates st2.dtree).Perm
        (TTT.leafStates st.dtree ++ [st.S.length]) := by
      rw [show TTT.leafStates st.dtree ++ [st.S.length, qOld] =
          (TTT.leafStates st.dtree ++ [st.S.length]) ++ [qOld] from
          (List.append_assoc (TTT.leafStates st.dtree) [st.S.length]
            [qOld]).symm] at hperm
      exact (List.perm_append_right_iff [qOld]).1 hperm
    exact ⟨TInv_extend st st2 (uAcc ++ [a]) hinv hS hperm2, hS⟩

/-- C9 witness: the bijection invariant through a concrete non-creating sift
on `ttInit` and through the concrete split producing `pcEx`. -/
theorem C9_witness :
    (TTT.TInv ttInit ∧
      (ttInit.S = ttInit.S ∨ ttInit.S = ttInit.S ++ [([], ttInit.S.length)])) ∧
    (TTT.TInv pcEx ∧ pcEx.S = ttInit.S ++ [([0], ttInit.S.length)]) :=
  ⟨(C9_states_biject_leaves mqId).1 ttInit [] 0 ttInit (by decide) rfl,
   (C9_states_biject_leaves mqId).2.2 ttInit 0 [] 0 [] pcEx (by decide) rfl⟩

/-- C10: when the access-sequence map is prefix-closed at entry it stays
prefix-closed through the transition-building loop (every key inserted by a
sift during the loop extends an existing key by one symbol), so the
spanning-tree pass's lookup of the access sequence shortened by one symbol
succeeds for every non-empty key; and a `process_counterexample` whose new
key extends the recorded access sequence of `u` by the single symbol `a`
preserves prefix-closedness as well. -/
theorem C10_prefix_closed_preserved (mq : List I → List O) :
    (∀ (st : TTT.TTTState I O) (fuel : Nat) (es0 : TTT.Edges I O)
      (r : TTT.TTTState I O × TTT.Edges I O),
      TTT.prefixClosedKeys st.S → TTT.hyp_loop mq fuel st es0 = some r →
      TTT.prefixClosedKeys r.1.S ∧
        ∀ es, (TTT.spanning mq r.1 es).isSome) ∧
    (∀ (st : TTT.TTTState I O) (qOld : Nat) (uAcc : List I) (a : I)
      (v : List I) (st2 : TTT.TTTState I O),
      TTT.prefixClosedKeys st.S → uAcc ∈ TTT.keysOf st.S →
      TTT.process_counterexample mq st qOld uAcc a v = some st2 →
      TTT.prefixClosedKeys st2.S) := by
  have hP : ∀ (st : TTT.TTTState I O) (ac : List I) (a : I) (q : Nat)
      (st2 : TTT.TTTState I O), TTT.prefixClosedKeys st.S →
      ac ∈ TTT.keysOf st.S → TTT.sift mq st (ac ++ [a]) = some (q, st2) →
      TTT.prefixClosedKeys st2.S := by
    intro st ac a q st2 hpc hac hsift
    rcases sift_S_shape mq st (ac ++ [a]) q st2 hsift with
      ⟨hS, _⟩ | ⟨hS, _, _⟩
    · rw [hS]
      exact hpc
    · rw [hS]
      exact prefixClosed_snoc st.S ac a st.S.length hpc hac
  constructor
  · intro st fuel es0 r hpc hloop
    have h1 : TTT.prefixClosedKeys r.1.S :=
      hyp_loop_preserves mq (fun st => TTT.prefixClosedKeys st.S) hP
        fuel st es0 r hpc hloop
    exact ⟨h1, fun es => spanning_isSome mq r.1 h1 es⟩
  · intro st qOld uAcc a v st2 hpc hu hproc
    obtain ⟨hS, _, _⟩ :=
      process_counterexample_spec mq st qOld uAcc a v st2 hproc
    rw [hS]
    exact prefixClosed_snoc st.S uAcc a st.S.length hpc hu

/-- C10 witness: prefix-closedness through a concrete transition-building
loop on `ttInit` (with the spanning pass succeeding) and through the
concrete split producing `pcEx`. -/
theorem C10_witness :
    TTT.prefixClosedKeys pcEx.S ∧
    (TTT.prefixClosedKeys ttInit.S ∧
      ∀ es, (TTT.spanning mqId ttInit es).isSome) :=
  ⟨(C10_prefix_closed_preserved mqId).2 ttInit 0 [] 0 [] pcEx (by decide)
     (by decide) rfl,
   (C10_prefix_closed_preserved mqId).1 ttInit 1 []
     (ttInit, [((0, 0), ([0], 0))]) (by decide) rfl⟩

end STMLearn
